import Mathlib

/-!
# Shallow embedding of the covariance/correlation notebooks

The repository consists of two notebooks computing sample statistics of
data matrices with numpy: means, (unbiased) variances, covariance and
correlation matrices, matrix rank, and the propagation of missing values
(NaN) through the aggregate mean.  Numbers manipulated by the notebooks
are embedded as exact rationals (`ℚ`) — or reals (`ℝ`) where a square
root occurs — and a floating-point value that may be NaN is embedded as
`Option ℚ` with `none` playing the role of NaN.

Library routines called by the notebooks (`np.mean`, `np.var`, `np.cov`,
`np.std`, `np.nanmean`, `np.linalg.matrix_rank`) are modelled from their
documented semantics; the matrix-operation formulas
(`1/(A0.shape[0]-1) * (A0.T @ A0)` and friends) are embedded directly
from the notebook cells.
-/

namespace STA

open Finset Matrix

variable {n p k : ℕ} {K : Type} [Field K]

/-- `np.mean(x)` of a vector: the sum of the entries divided by the size. -/
def mean (x : Fin n → K) : K := (∑ i, x i) / (n : K)

/-- `A.mean(axis=0)`: the mean of column `j` of the data matrix `A`. -/
def colMean (A : Matrix (Fin n) (Fin p) K) (j : Fin p) : K :=
  (∑ i, A i j) / (n : K)

/-- The column-centered data matrix, called `A0` in the notebook:
`A0 = A - A.mean(axis=0)` (numpy broadcasting subtracts each column's
mean from that column). -/
def centered (A : Matrix (Fin n) (Fin p) K) : Matrix (Fin n) (Fin p) K :=
  Matrix.of fun i j => A i j - colMean A j

/-- The covariance computed by matrix operations in the notebook:
`1/(A0.shape[0]-1) * (A0.T @ A0)`, applied to a (centered) data matrix
with `n` rows of observations. -/
def covOps (M : Matrix (Fin n) (Fin p) K) : Matrix (Fin p) (Fin p) K :=
  (1 / ((n : K) - 1)) • (Mᵀ * M)

/-- The mean of row `j` of a matrix whose rows are the variables (the
orientation expected by `np.cov`). -/
def rowMean (M : Matrix (Fin p) (Fin n) K) (j : Fin p) : K :=
  (∑ i, M j i) / (n : K)

/-- Modelled from the numpy documentation of `np.cov(m, ddof=1)`: each
row of `m` is a variable and each column an observation; entry `(j, l)`
is the averaged product of the deviations of rows `j` and `l` from their
respective means, with normalization `N - 1`. -/
def npCov (M : Matrix (Fin p) (Fin n) K) : Matrix (Fin p) (Fin p) K :=
  Matrix.of fun j l =>
    (∑ i, (M j i - rowMean M j) * (M l i - rowMean M l)) / ((n : K) - 1)

/-- Modelled from the numpy documentation of `np.var(x, ddof)`: the mean
of the squared deviations from the mean, with divisor `N - ddof`
(the default `ddof = 0` gives the biased estimator, `ddof = 1` the
unbiased one). -/
def npVar (ddof : ℕ) (x : Fin n → K) : K :=
  (∑ i, (x i - mean x) ^ 2) / ((n : K) - (ddof : K))

/-- The textbook pairwise covariance of two series as printed in the
notebook: `cov(x,y) = 1/(n-1) * Σ (x_i - x̄)(y_i - ȳ)`. -/
def pairCov (x y : Fin n → K) : K :=
  (∑ i, (x i - mean x) * (y i - mean y)) / ((n : K) - 1)

/-- `xi = x - np.mean(x)`: the mean-centered vector. -/
def centeredVec (x : Fin n → K) : Fin n → K := fun i => x i - mean x

/-- `np.dot` of two one-dimensional arrays: the sum of the entrywise
products. -/
def dotVec (u v : Fin n → K) : K := ∑ i, u i * v i

/-- The variance computed via matrix operations in the first notebook:
`x_var = np.dot(xi, xi.T)/(np.size(x)-1)` with `xi = x - np.mean(x)`. -/
def x_var (x : Fin n → K) : K :=
  dotVec (centeredVec x) (centeredVec x) / ((n : K) - 1)

/-- `B = np.dot(A.T, A)` for a row vector `A` (a `1 × k` matrix): the
`k × k` outer-product matrix. -/
def gram (A : Matrix (Fin 1) (Fin k) ℚ) : Matrix (Fin k) (Fin k) ℚ :=
  Aᵀ * A

/-- `np.dot(A, A.T)` for a row vector `A`: the resulting `1 × 1` matrix
read off as a scalar. -/
def selfDot (A : Matrix (Fin 1) (Fin k) ℚ) : ℚ := (A * Aᵀ) 0 0

/-- Modelled from the numpy documentation of `np.linalg.matrix_rank`:
the number of singular values above the tolerance, which in exact
arithmetic is the mathematical rank of the matrix. -/
noncomputable def matrix_rank (A : Matrix (Fin n) (Fin p) ℚ) : ℕ := A.rank

/-- `np.std(A, axis=0, ddof=1)`: the square root of the unbiased
variance of column `j`. -/
noncomputable def colStd (A : Matrix (Fin n) (Fin p) ℝ) (j : Fin p) : ℝ :=
  Real.sqrt (npVar 1 (fun i => A i j))

/-- The standardized matrix of the notebook:
`Z = (A - A.mean(axis=0)) / np.std(A, axis=0, ddof=1)` (each column is
centered and divided by its unbiased standard deviation). -/
noncomputable def Zmat (A : Matrix (Fin n) (Fin p) ℝ) : Matrix (Fin n) (Fin p) ℝ :=
  Matrix.of fun i j => (A i j - colMean A j) / colStd A j

/-- The correlation matrix of the notebook:
`R = 1/(Z.shape[0]-1) * (Z.T @ Z)`. -/
noncomputable def corrMat (A : Matrix (Fin n) (Fin p) ℝ) : Matrix (Fin p) (Fin p) ℝ :=
  covOps (Zmat A)

/-! ## Missing values

A floating-point value of the notebook is embedded as `Option ℚ`:
`some q` is an ordinary number and `none` is NaN.  Arithmetic on such
values propagates NaN, exactly as IEEE addition and division do. -/

/-- NaN-propagating addition of floating-point values. -/
def fadd : Option ℚ → Option ℚ → Option ℚ
  | some a, some b => some (a + b)
  | _, _ => none

/-- The sum of a vector of floating-point values; NaN anywhere makes the
sum NaN. -/
def fsum (l : List (Option ℚ)) : Option ℚ := l.foldr fadd (some 0)

/-- `np.mean` on a vector of floating-point values: the sum divided by
the size.  A NaN entry makes the sum, hence the mean, NaN; the mean of
an empty vector is NaN as well. -/
def npMeanOpt (y : List (Option ℚ)) : Option ℚ :=
  match fsum y with
  | none => none
  | some s => if y.length = 0 then none else some (s / (y.length : ℚ))

/-- `np.isnan` on a floating-point value. -/
def isnan (o : Option ℚ) : Bool := o.isNone

/-- `y[~np.isnan(y)]`: the subvector of the non-NaN entries of `y`,
selected by the Boolean mask `valid = ~np.isnan(y)`. -/
def selectValid (y : List (Option ℚ)) : List (Option ℚ) :=
  y.filter fun o => !(isnan o)

/-- Modelled from the numpy documentation of `np.nanmean(y)`: the
arithmetic mean of the non-NaN elements (their sum divided by their
count); all-NaN input yields NaN. -/
def npNanmean (y : List (Option ℚ)) : Option ℚ :=
  if (y.filterMap id).length = 0 then none
  else some ((y.filterMap id).sum / ((y.filterMap id).length : ℚ))

/-! ## Concrete data from the notebooks -/

/-- The `4 × 3` data matrix `A` of the second notebook. -/
def Aex : Matrix (Fin 4) (Fin 3) ℚ :=
  !![4, -2, 12; -2, 1, -6; 12, -6, 36; -6, 3, -18]

/-- The same matrix read as real data, for the standardization steps. -/
noncomputable def AexR : Matrix (Fin 4) (Fin 3) ℝ :=
  !![4, -2, 12; -2, 1, -6; 12, -6, 36; -6, 3, -18]

/-- A small real data matrix whose two columns both have values
`0, 1, 2`, hence column variance `1` and nonzero standard deviation. -/
noncomputable def Sex : Matrix (Fin 3) (Fin 2) ℝ := !![0, 0; 1, 1; 2, 2]

/-- The vector `x = [1, 2, 3, 4, 5, 6]` of the first notebook. -/
def xex : Fin 6 → ℚ := ![1, 2, 3, 4, 5, 6]

/-- The vector `y = [1, 2, 3, np.nan, 5, 6]` of the first notebook. -/
def yex : List (Option ℚ) :=
  [some 1, some 2, some 3, none, some 5, some 6]

/-! ## Basic lemmas -/

lemma sum_centered_eq_zero (A : Matrix (Fin n) (Fin p) K) (j : Fin p)
    (hn : (n : K) ≠ 0) : ∑ i, centered A i j = 0 := by
  have h : (n : K) * ((∑ i, A i j) / (n : K)) = ∑ i, A i j := by
    field_simp
  simp only [centered, Matrix.of_apply, Finset.sum_sub_distrib, Finset.sum_const,
    Finset.card_univ, Fintype.card_fin, nsmul_eq_mul, colMean, h, sub_self]

/-! ## Claims -/

/-- C1: for a data matrix `A` with `n ≥ 2` rows, the library covariance
routine `np.cov(·, ddof=1)` applied to the transposed matrix agrees with
the textbook formula `1/(n-1) * A0ᵀ·A0` on the column-centered matrix
`A0`, whether the centering is done before the call or left to the
routine. -/
theorem npCov_eq_covOps (A : Matrix (Fin n) (Fin p) ℚ) (hn : 2 ≤ n) :
    npCov ((centered A)ᵀ) = covOps (centered A) ∧
      npCov Aᵀ = covOps (centered A) := by
  have hn0 : (n : ℚ) ≠ 0 := by
    have h2 : (0 : ℚ) < n := by exact_mod_cast Nat.lt_of_lt_of_le Nat.zero_lt_two hn
    exact h2.ne'
  constructor
  · have hrm : ∀ j : Fin p, rowMean ((centered A)ᵀ) j = 0 := by
      intro j
      simp only [rowMean, Matrix.transpose_apply]
      rw [sum_centered_eq_zero A j hn0, zero_div]
    ext j l
    simp [npCov, covOps, Matrix.mul_apply, Matrix.transpose_apply, hrm,
      Matrix.smul_apply, smul_eq_mul, one_div, inv_mul_eq_div]
  · have hrm : ∀ j : Fin p, rowMean (Aᵀ) j = colMean A j := by
      intro j
      simp [rowMean, colMean, Matrix.transpose_apply]
    ext j l
    simp [npCov, covOps, Matrix.mul_apply, Matrix.transpose_apply, hrm, centered,
      Matrix.smul_apply, smul_eq_mul, one_div, inv_mul_eq_div]

theorem npCov_eq_covOps_witness :
    2 ≤ 4 ∧ (npCov ((centered Aex)ᵀ) = covOps (centered Aex) ∧
      npCov Aexᵀ = covOps (centered Aex)) :=
  ⟨by norm_num, npCov_eq_covOps Aex (by norm_num)⟩

/-- C2: for a data matrix `A` with `n ≥ 2` rows, the covariance matrix
`C = 1/(n-1) * A0ᵀ·A0` is symmetric: `C = Cᵀ`, i.e. `C j l = C l j` for
all `j, l`. -/
theorem covMatrix_symmetric (A : Matrix (Fin n) (Fin p) ℚ) (hn : 2 ≤ n) :
    (covOps (centered A))ᵀ = covOps (centered A) ∧
      ∀ j l : Fin p, covOps (centered A) j l = covOps (centered A) l j := by
  have h : (covOps (centered A))ᵀ = covOps (centered A) := by
    simp [covOps, Matrix.transpose_smul, Matrix.transpose_mul,
      Matrix.transpose_transpose]
  refine ⟨h, fun j l => ?_⟩
  nth_rewrite 1 [← h]
  rw [Matrix.transpose_apply]

theorem covMatrix_symmetric_witness :
    2 ≤ 4 ∧ ((covOps (centered Aex))ᵀ = covOps (centered Aex) ∧
      ∀ j l : Fin 3, covOps (centered Aex) j l = covOps (centered Aex) l j) :=
  ⟨by norm_num, covMatrix_symmetric Aex (by norm_num)⟩

/-- C3: for a data matrix `A` with `n ≥ 2` rows, the diagonal of the
covariance matrix holds the unbiased per-column variances and the
off-diagonal entries hold the pairwise covariances of the columns. -/
theorem covMatrix_diag_offdiag (A : Matrix (Fin n) (Fin p) ℚ) (hn : 2 ≤ n)
    (j l : Fin p) :
    covOps (centered A) j j = npVar 1 (fun i => A i j) ∧
      (j ≠ l →
        covOps (centered A) j l = pairCov (fun i => A i j) (fun i => A i l)) := by
  constructor
  · simp [covOps, npVar, Matrix.mul_apply, Matrix.transpose_apply, centered,
      Matrix.smul_apply, smul_eq_mul, one_div, inv_mul_eq_div, sq, mean, colMean]
  · intro _
    simp [covOps, pairCov, Matrix.mul_apply, Matrix.transpose_apply, centered,
      Matrix.smul_apply, smul_eq_mul, one_div, inv_mul_eq_div, mean, colMean]

theorem covMatrix_diag_offdiag_witness :
    2 ≤ 4 ∧ covOps (centered Aex) 0 0 = npVar 1 (fun i => Aex i 0) ∧
      covOps (centered Aex) 0 1 = pairCov (fun i => Aex i 0) (fun i => Aex i 1) :=
  ⟨by norm_num, (covMatrix_diag_offdiag Aex (by norm_num) 0 1).1,
    (covMatrix_diag_offdiag Aex (by norm_num) 0 1).2 (by decide)⟩

/-- C5: for a vector `x` of length `n ≥ 2`, the variance computed via
matrix operations (`np.dot(xi, xi.T)/(np.size(x)-1)` with
`xi = x - np.mean(x)`) equals `np.var(x, ddof=1)`, the average squared
deviation with the unbiased `n-1` divisor; `np.var` without the
parameter (`ddof=0`) divides by `n` instead. -/
theorem x_var_eq_npVar (x : Fin n → ℚ) (hn : 2 ≤ n) :
    x_var x = npVar 1 x ∧
      npVar 0 x = (∑ i, (x i - mean x) ^ 2) / (n : ℚ) := by
  constructor
  · simp [x_var, npVar, dotVec, centeredVec, sq]
  · simp [npVar]

theorem x_var_eq_npVar_witness :
    2 ≤ 6 ∧ (x_var xex = npVar 1 xex ∧
      npVar 0 xex = (∑ i, (xex i - mean xex) ^ 2) / (6 : ℚ)) :=
  ⟨by norm_num, x_var_eq_npVar xex (by norm_num)⟩

/-- C8: for a row vector `A` with `k` entries, the outer product
`B = np.dot(A.T, A)` is a square symmetric `k × k` matrix whose trace
equals the scalar inner product `np.dot(A, A.T)`, the sum of the squares
of the entries of `A`. -/
theorem gram_symm_trace (A : Matrix (Fin 1) (Fin k) ℚ) :
    (gram A)ᵀ = gram A ∧ (gram A).trace = selfDot A ∧
      selfDot A = ∑ j, A 0 j ^ 2 := by
  refine ⟨?_, ?_, ?_⟩
  · simp [gram, Matrix.transpose_mul, Matrix.transpose_transpose]
  · simp [gram, selfDot, Matrix.trace, Matrix.diag, Matrix.mul_apply,
      Matrix.transpose_apply, Fin.sum_univ_one]
  · simp [selfDot, Matrix.mul_apply, Matrix.transpose_apply, sq,
      Fin.sum_univ_one]

lemma fsum_eq_none_of_mem (l : List (Option ℚ)) (h : none ∈ l) :
    fsum l = none := by
  induction l with
  | nil => cases h
  | cons a t ih =>
    cases h with
    | head => rfl
    | tail _ ht =>
      show fadd a (fsum t) = none
      rw [ih ht]
      cases a <;> rfl

/-- C6: the aggregate mean of a non-empty vector containing at least one
NaN entry is NaN: the missing value propagates through `np.mean`. -/
theorem mean_propagates_nan (y : List (Option ℚ)) (hne : y ≠ [])
    (h : none ∈ y) : npMeanOpt y = none := by
  simp [npMeanOpt, fsum_eq_none_of_mem y h]

theorem mean_propagates_nan_witness :
    yex ≠ [] ∧ none ∈ yex ∧ npMeanOpt yex = none :=
  ⟨by decide, by decide, mean_propagates_nan yex (by decide) (by decide)⟩

lemma selectValid_eq_map_some (y : List (Option ℚ)) :
    selectValid y = (y.filterMap id).map some := by
  induction y with
  | nil => rfl
  | cons a t ih =>
    cases a with
    | none => simpa [selectValid, isnan] using ih
    | some q =>
      simp only [selectValid, isnan, List.filter_cons] at ih ⊢
      simpa using ih

lemma fsum_map_some (l : List ℚ) : fsum (l.map some) = some l.sum := by
  induction l with
  | nil => rfl
  | cons a t ih =>
    show fadd (some a) (fsum (t.map some)) = some (a + t.sum)
    rw [ih]
    rfl

/-- C10: for a vector with at least one non-missing entry, the
NaN-skipping mean `np.nanmean(y)` equals the ordinary mean of the
subvector `y[~np.isnan(y)]` of non-missing entries. -/
theorem nanmean_eq_mean_selectValid (y : List (Option ℚ))
    (h : ∃ o ∈ y, isnan o = false) :
    npNanmean y = npMeanOpt (selectValid y) := by
  have hlen : (y.filterMap id).length ≠ 0 := by
    obtain ⟨o, ho, hno⟩ := h
    cases o with
    | none => simp [isnan] at hno
    | some q =>
      have hq : q ∈ y.filterMap id := List.mem_filterMap.mpr ⟨some q, ho, rfl⟩
      intro hl
      rw [List.length_eq_zero] at hl
      rw [hl] at hq
      cases hq
  rw [selectValid_eq_map_some]
  unfold npNanmean npMeanOpt
  rw [fsum_map_some]
  simp [hlen]

theorem nanmean_eq_mean_selectValid_witness :
    (∃ o ∈ yex, isnan o = false) ∧
      npNanmean yex = npMeanOpt (selectValid yex) :=
  ⟨by decide, nanmean_eq_mean_selectValid yex (by decide)⟩

lemma sub_one_pos_of_two_le (hn : 2 ≤ n) : (0 : ℝ) < (n : ℝ) - 1 := by
  have h2 : (2 : ℝ) ≤ (n : ℝ) := by exact_mod_cast hn
  linarith

lemma colVar_nonneg (A : Matrix (Fin n) (Fin p) ℝ) (hn : 2 ≤ n) (j : Fin p) :
    0 ≤ npVar 1 (fun i => A i j) := by
  unfold npVar
  refine div_nonneg (Finset.sum_nonneg fun i _ => sq_nonneg _) ?_
  rw [Nat.cast_one]
  exact (sub_one_pos_of_two_le hn).le

lemma sq_colStd (A : Matrix (Fin n) (Fin p) ℝ) (hn : 2 ≤ n) (j : Fin p) :
    colStd A j ^ 2 = npVar 1 (fun i => A i j) :=
  Real.sq_sqrt (colVar_nonneg A hn j)

lemma sum_sq_centered (A : Matrix (Fin n) (Fin p) ℝ) (hn : (n : ℝ) - 1 ≠ 0)
    (j : Fin p) :
    ∑ i, (A i j - colMean A j) ^ 2 = ((n : ℝ) - 1) * npVar 1 (fun i => A i j) := by
  unfold npVar
  rw [Nat.cast_one, mul_comm, div_mul_cancel₀ _ hn]
  rfl

/-- C4: for a data matrix `A` with `n ≥ 2` rows all of whose columns
have nonzero standard deviation, every entry of the correlation matrix
`R = 1/(n-1) * Zᵀ·Z` (with `Z` the standardized data) equals the
pairwise covariance normalized by the product of the standard
deviations, and lies in `[-1, 1]`. -/
theorem corrMat_entries_bounded (A : Matrix (Fin n) (Fin p) ℝ) (hn : 2 ≤ n)
    (hstd : ∀ j, colStd A j ≠ 0) (j l : Fin p) :
    corrMat A j l = pairCov (fun i => A i j) (fun i => A i l) /
      (colStd A j * colStd A l) ∧
      (-1 ≤ corrMat A j l ∧ corrMat A j l ≤ 1) := by
  have hν : (0 : ℝ) < (n : ℝ) - 1 := sub_one_pos_of_two_le hn
  have hsj : 0 < colStd A j :=
    lt_of_le_of_ne (Real.sqrt_nonneg _) (Ne.symm (hstd j))
  have hsl : 0 < colStd A l :=
    lt_of_le_of_ne (Real.sqrt_nonneg _) (Ne.symm (hstd l))
  have hsumj : ∑ i, (A i j - colMean A j) ^ 2 =
      ((n : ℝ) - 1) * colStd A j ^ 2 := by
    rw [sq_colStd A hn j]
    exact sum_sq_centered A hν.ne' j
  have hsuml : ∑ i, (A i l - colMean A l) ^ 2 =
      ((n : ℝ) - 1) * colStd A l ^ 2 := by
    rw [sq_colStd A hn l]
    exact sum_sq_centered A hν.ne' l
  have hentry : corrMat A j l =
      (∑ i, (A i j - colMean A j) * (A i l - colMean A l)) /
        (((n : ℝ) - 1) * (colStd A j * colStd A l)) := by
    simp only [corrMat, covOps, Zmat, Matrix.smul_apply, Matrix.mul_apply,
      Matrix.transpose_apply, Matrix.of_apply, smul_eq_mul]
    rw [Finset.sum_congr rfl fun i _ =>
      div_mul_div_comm (A i j - colMean A j) (colStd A j)
        (A i l - colMean A l) (colStd A l)]
    rw [← Finset.sum_div, one_div, inv_mul_eq_div, div_div]
    ring
  have hcs : (∑ i, (A i j - colMean A j) * (A i l - colMean A l)) ^ 2 ≤
      (((n : ℝ) - 1) * (colStd A j * colStd A l)) ^ 2 := by
    calc (∑ i, (A i j - colMean A j) * (A i l - colMean A l)) ^ 2
        ≤ (∑ i, (A i j - colMean A j) ^ 2) * ∑ i, (A i l - colMean A l) ^ 2 :=
          Finset.sum_mul_sq_le_sq_mul_sq _ _ _
      _ = (((n : ℝ) - 1) * (colStd A j * colStd A l)) ^ 2 := by
          rw [hsumj, hsuml]; ring
  have hD : (0 : ℝ) < ((n : ℝ) - 1) * (colStd A j * colStd A l) := by
    positivity
  have habs : |∑ i, (A i j - colMean A j) * (A i l - colMean A l)| ≤
      ((n : ℝ) - 1) * (colStd A j * colStd A l) := by
    calc |∑ i, (A i j - colMean A j) * (A i l - colMean A l)|
        = Real.sqrt ((∑ i, (A i j - colMean A j) * (A i l - colMean A l)) ^ 2) :=
          (Real.sqrt_sq_eq_abs _).symm
      _ ≤ Real.sqrt ((((n : ℝ) - 1) * (colStd A j * colStd A l)) ^ 2) :=
          Real.sqrt_le_sqrt hcs
      _ = ((n : ℝ) - 1) * (colStd A j * colStd A l) := Real.sqrt_sq hD.le
  have hbound : |corrMat A j l| ≤ 1 := by
    rw [hentry, abs_div, abs_of_pos hD]
    exact div_le_one_of_le₀ habs hD.le
  refine ⟨?_, abs_le.mp hbound⟩
  rw [hentry]
  unfold pairCov
  rw [div_div]
  rfl

lemma sum_dev_eq_zero (A : Matrix (Fin n) (Fin p) K) (j : Fin p)
    (hn : (n : K) ≠ 0) : ∑ i, (A i j - colMean A j) = 0 :=
  sum_centered_eq_zero A j hn

/-- C9: for a data matrix `A` with `n ≥ 2` rows all of whose columns
have nonzero unbiased standard deviation, every column of the
standardized matrix `Z = (A - A.mean(axis=0)) / np.std(A, axis=0, ddof=1)`
has mean `0`, unbiased variance `1` and standard deviation `1`; and
already the centered matrix `A - A.mean(axis=0)` has every column mean
equal to `0`. -/
theorem standardized_mean_var (A : Matrix (Fin n) (Fin p) ℝ) (hn : 2 ≤ n)
    (hstd : ∀ j, colStd A j ≠ 0) (j : Fin p) :
    colMean (Zmat A) j = 0 ∧ npVar 1 (fun i => Zmat A i j) = 1 ∧
      colStd (Zmat A) j = 1 ∧ colMean (centered A) j = 0 := by
  have hν : (0 : ℝ) < (n : ℝ) - 1 := sub_one_pos_of_two_le hn
  have hn0 : (n : ℝ) ≠ 0 := by
    have h2 : (2 : ℝ) ≤ (n : ℝ) := by exact_mod_cast hn
    linarith
  have hz0 : colMean (Zmat A) j = 0 := by
    unfold colMean Zmat
    simp only [Matrix.of_apply]
    rw [← Finset.sum_div, sum_dev_eq_zero A j hn0, zero_div, zero_div]
  have hvz : mean (fun i => Zmat A i j) = 0 := hz0
  have hvar : npVar 1 (fun i => Zmat A i j) = 1 := by
    unfold npVar
    rw [hvz]
    simp only [sub_zero, Nat.cast_one]
    have hZsq : ∀ i, Zmat A i j ^ 2 =
        (A i j - colMean A j) ^ 2 / colStd A j ^ 2 := by
      intro i
      simp [Zmat, div_pow]
    rw [Finset.sum_congr rfl fun i _ => hZsq i, ← Finset.sum_div,
      sum_sq_centered A hν.ne' j, ← sq_colStd A hn j, mul_div_assoc,
      div_self (pow_ne_zero 2 (hstd j)), mul_one, div_self hν.ne']
  refine ⟨hz0, hvar, ?_, ?_⟩
  · unfold colStd
    rw [hvar]
    exact Real.sqrt_one
  · unfold colMean
    rw [sum_centered_eq_zero A j hn0, zero_div]

lemma colVar_Sex_pos (j : Fin 2) : 0 < npVar 1 (fun i => Sex i j) := by
  fin_cases j <;>
    norm_num [npVar, mean, Sex, Fin.sum_univ_three, Matrix.cons_val_zero,
      Matrix.cons_val_one, Matrix.cons_val_two, Matrix.head_cons,
      Matrix.vecHead, Matrix.vecTail]

lemma colStd_Sex_ne (j : Fin 2) : colStd Sex j ≠ 0 := by
  unfold colStd
  exact Real.sqrt_ne_zero'.mpr (colVar_Sex_pos j)

theorem corrMat_entries_bounded_witness :
    2 ≤ 3 ∧ (corrMat Sex 0 1 = pairCov (fun i => Sex i 0) (fun i => Sex i 1) /
      (colStd Sex 0 * colStd Sex 1) ∧
      (-1 ≤ corrMat Sex 0 1 ∧ corrMat Sex 0 1 ≤ 1)) :=
  ⟨by norm_num, corrMat_entries_bounded Sex (by norm_num) colStd_Sex_ne 0 1⟩

theorem standardized_mean_var_witness :
    2 ≤ 3 ∧ (colMean (Zmat Sex) 0 = 0 ∧
      npVar 1 (fun i => Zmat Sex i 0) = 1 ∧
      colStd (Zmat Sex) 0 = 1 ∧ colMean (centered Sex) 0 = 0) :=
  ⟨by norm_num, standardized_mean_var Sex (by norm_num) colStd_Sex_ne 0⟩

/-- C7: for a data matrix with `p > 1` columns, linear dependence of the
columns makes `np.linalg.matrix_rank` (the mathematical rank) strictly
smaller than `p`; in particular when every column is a scalar multiple
of one nonzero column (as for the notebook's `4 × 3` matrix) the rank of
a nonzero matrix is exactly `1`. -/
theorem rank_deficient (A : Matrix (Fin n) (Fin p) ℚ) (hp : 1 < p) :
    (¬ LinearIndependent ℚ (fun j : Fin p => Aᵀ j) → matrix_rank A < p) ∧
      (∀ c : Fin n → ℚ, c ≠ 0 → (∀ j, ∃ t : ℚ, Aᵀ j = t • c) →
        A ≠ 0 → matrix_rank A = 1) := by
  unfold matrix_rank
  constructor
  · intro hdep
    have h1 : ¬ (Fintype.card (Fin p) ≤
        (Set.range fun j : Fin p => Aᵀ j).finrank ℚ) := by
      intro hcard
      exact hdep (linearIndependent_iff_card_le_finrank_span.mpr hcard)
    rw [not_le] at h1
    rw [Matrix.rank_eq_finrank_span_cols]
    simpa [Set.finrank] using h1
  · intro c hc ht hA
    have hspan : Submodule.span ℚ (Set.range Aᵀ) = Submodule.span ℚ {c} := by
      apply le_antisymm
      · rw [Submodule.span_le]
        rintro x ⟨j, rfl⟩
        obtain ⟨t, htj⟩ := ht j
        rw [htj]
        exact Submodule.smul_mem _ t (Submodule.mem_span_singleton_self c)
      · rw [Submodule.span_le, Set.singleton_subset_iff]
        obtain ⟨i, j, hij⟩ : ∃ i j, A i j ≠ 0 := by
          by_contra hall
          push_neg at hall
          refine hA ?_
          ext i j
          simp [hall i j]
        obtain ⟨t, htj⟩ := ht j
        have htne : t ≠ 0 := by
          intro h0
          rw [h0, zero_smul] at htj
          have hz := congrFun htj i
          simp only [Matrix.transpose_apply, Pi.zero_apply] at hz
          exact hij hz
        have hcmem : c = t⁻¹ • Aᵀ j := by
          rw [htj, smul_smul, inv_mul_cancel₀ htne, one_smul]
        rw [hcmem]
        exact Submodule.smul_mem _ _ (Submodule.subset_span ⟨j, rfl⟩)
    rw [Matrix.rank_eq_finrank_span_cols, hspan]
    exact finrank_span_singleton hc

theorem rank_deficient_witness : 1 < 3 ∧ matrix_rank Aex = 1 := by
  refine ⟨by norm_num, ?_⟩
  refine (rank_deficient Aex (by norm_num)).2 ![4, -2, 12, -6] (by decide) ?_
    (by decide)
  intro j
  fin_cases j
  · exact ⟨1, by
      funext i
      fin_cases i <;>
        norm_num [Aex, Matrix.transpose_apply, Matrix.cons_val_zero,
          Matrix.cons_val_one, Matrix.cons_val_two, Matrix.cons_val_three,
          Matrix.head_cons, Matrix.vecHead, Matrix.vecTail]⟩
  · exact ⟨-(1 / 2), by
      funext i
      fin_cases i <;>
        norm_num [Aex, Matrix.transpose_apply, Matrix.cons_val_zero,
          Matrix.cons_val_one, Matrix.cons_val_two, Matrix.cons_val_three,
          Matrix.head_cons, Matrix.vecHead, Matrix.vecTail]⟩
  · exact ⟨3, by
      funext i
      fin_cases i <;>
        norm_num [Aex, Matrix.transpose_apply, Matrix.cons_val_zero,
          Matrix.cons_val_one, Matrix.cons_val_two, Matrix.cons_val_three,
          Matrix.head_cons, Matrix.vecHead, Matrix.vecTail]⟩

end STA
